import Mathlib

/-!
Verification of the `OptiTrade` pair-finding scanner
(`src/OptiTrader/optitrade.py`).

The series is modelled as a `List ℚ` indexed by position (a pandas
`Series` with the default `RangeIndex`, so label = position).  The
`while` loops of the source are modelled with explicit fuel; the fuel
argument passed at each entry point equals the exact number of steps
the corresponding Python loop can still make before its bound check
fails, so the fuel-indexed functions compute exactly the source loops
(totality of the main scan is proved separately, claim C3).
-/

/-- Series access `tseries[i]`.  Out-of-range access is modelled
totally with a default of `0`; the safety claim (C9) proves that every
access the scan performs is in bounds, so the default is never
consulted on the executions the claims are about. -/
def getS (t : List ℚ) (i : ℕ) : ℚ := t.getD i 0

/-- The negated series `-self.tseries` that `find_optimal_pairs` passes
to `find_smaller` to search for a maximum. -/
def negSeries (t : List ℚ) : List ℚ := t.map (fun x => -x)

/-- The `while` loop of `OptiTrade.find_smaller`:
`while (pos + 1 < len(tseries) and tseries[pos] >= tseries[pos + 1]): pos += 1`. -/
def find_smaller_go (t : List ℚ) : ℕ → ℕ → ℕ
  | 0, pos => pos
  | fuel+1, pos =>
    if pos + 1 < t.length ∧ getS t (pos+1) ≤ getS t pos then
      find_smaller_go t fuel (pos+1)
    else pos

/-- Embedding of `OptiTrade.find_smaller(tseries)`: starting at `pos`, advance while
the next sample is `≤` the current one; return the final position.
`t.length - pos` is exactly the number of loop steps still possible, so
the fuel never runs out before the loop condition fails. -/
def find_smaller (t : List ℚ) (pos : ℕ) : ℕ :=
  find_smaller_go t (t.length - pos) pos

/-- Embedding of `OptiTrade.net_positive`:
`((1 - penalty) * tseries[tmp[1]] - (1 + penalty) * tseries[tmp[0]]) > 0`
for a scalar penalty. -/
def net_positive (t : List ℚ) (penalty : ℚ) (tmp : List ℕ) : Bool :=
  decide ((1 - penalty) * getS t (tmp.getD 1 0) -
          (1 + penalty) * getS t (tmp.getD 0 0) > 0)

/-- The forward scan inside `OptiTrade.find_next_larger`:
`tseries[pos:].where(tseries[pos:] > min_val).first_valid_index()`
returns the first label `i ≥ pos` with `tseries[i] > min_val`, or
`None` when no such sample exists. -/
def find_from_go (t : List ℚ) (min_val : ℚ) : ℕ → ℕ → Option ℕ
  | 0, _ => none
  | fuel+1, i =>
    if i < t.length then
      if min_val < getS t i then some i
      else find_from_go t min_val fuel (i+1)
    else none

/-- Embedding of `OptiTrade.find_next_larger`: first position at or after `pos`
whose value strictly exceeds `tseries[pos]`, else `none`. -/
def find_next_larger (t : List ℚ) (pos : ℕ) : Option ℕ :=
  find_from_go t (getS t pos) (t.length - pos) pos

/-- The scan inside `OptiTrade.find_min`:
`tseries[pos:end_pos].argmin()` keeps the first occurrence of the
minimum, scanning positions `i` with `i < end_pos` and `i < len`. -/
def argmin_go (t : List ℚ) : ℕ → ℕ → ℕ → ℕ → ℕ
  | 0, best, _, _ => best
  | fuel+1, best, i, end_pos =>
    if i < end_pos ∧ i < t.length then
      if getS t i < getS t best then argmin_go t fuel i (i+1) end_pos
      else argmin_go t fuel best (i+1) end_pos
    else best

/-- Embedding of `OptiTrade.find_min(end_pos)`:
`tseries[position:end_pos].argmin() + position`, the position of the
first minimum of the slice `[pos, end_pos)` (clipped to the series
length).  The scan only calls it with `pos < end_pos` and
`pos < t.length`, so the slice is never empty. -/
def find_min (t : List ℚ) (pos : ℕ) (end_pos : ℕ) : ℕ :=
  argmin_go t (t.length - pos) pos (pos+1) end_pos

/-- Embedding of `OptiTrade.check_profitable(intermediate)`:
`(current - intermediate - penalty * (current + intermediate)) > 0`
where `current = tseries[position]`. -/
def check_profitable (t : List ℚ) (penalty : ℚ) (pos : ℕ)
    (intermediate : ℚ) : Bool :=
  decide (getS t pos - intermediate -
          penalty * (getS t pos + intermediate) > 0)

/-- The mutable state of the scan: the cursor `self.position`, the
candidate buffer `self.tmp` and the output `self.registered_pairs`
(each registered pair is the two-element list `self.tmp` that was
appended). -/
structure ScanState where
  position : ℕ
  tmp : List ℕ
  registered_pairs : List (List ℕ)
deriving DecidableEq

/-- The inner `while` loop of `OptiTrade.find_optimal_pairs`, with
fuel.  Each recursive call is one further iteration of
`while self.position < len(self.tseries) - 1:`; `none` means the fuel
ran out before the loop finished (ruled out for the fuel used by
`find_optimal_pairs` in `innerF_total`). -/
def innerF (t : List ℚ) (p : ℚ) : ℕ → ScanState → Option ScanState
  | 0, _ => none
  | fuel+1, s =>
    if s.position < t.length - 1 then
      -- Find closest maximum, this is a decision point
      let decision_point := find_smaller (negSeries t) s.position
      let tmp2 := s.tmp ++ [decision_point]
      -- Find next time the time series exceeds current value
      match find_next_larger t decision_point with
      | none =>
        -- Handle case when the current peak is global
        if net_positive t p tmp2 then
          some ⟨decision_point, [], s.registered_pairs ++ [tmp2]⟩
        else
          some ⟨decision_point, [], s.registered_pairs⟩
      | some next_larger_id =>
        -- Check profitability in opting out and back in when dropped
        let intermediate_point := find_min t decision_point next_larger_id
        let profitable := check_profitable t p decision_point
          (getS t intermediate_point)
        if profitable && net_positive t p tmp2 then
          -- Add positions to registry
          some ⟨decision_point, [], s.registered_pairs ++ [tmp2]⟩
        else if profitable then
          -- Handle case when opting in value can be reduced
          let pos2 := find_smaller t decision_point
          innerF t p fuel
            ⟨pos2, (tmp2.set 0 pos2).eraseIdx 1, s.registered_pairs⟩
        else
          -- Move to next larger value
          innerF t p fuel
            ⟨next_larger_id, tmp2.eraseIdx 1, s.registered_pairs⟩
    else some s

/-- The outer `while` loop of `OptiTrade.find_optimal_pairs`, with
fuel.  One unit of fuel is consumed per outer iteration; the inner
loop receives the full remaining fuel. -/
def outerF (t : List ℚ) (p : ℚ) : ℕ → ScanState → Option ScanState
  | 0, _ => none
  | fuel+1, s =>
    if s.position < t.length - 1 then
      -- Find start point
      let opt_in := find_smaller t s.position
      match innerF t p (fuel+1)
          ⟨opt_in, s.tmp ++ [opt_in], s.registered_pairs⟩ with
      | none => none
      | some s2 => outerF t p fuel s2
    else some s

/-- Embedding of `OptiTrade.find_optimal_pairs` run on a freshly constructed
instance (`position = 0`, `tmp = []`, `registered_pairs = []`).
`t.length + 1` units of fuel suffice because the cursor strictly
increases on every loop iteration (proved in `outerF_total`). -/
def find_optimal_pairs (t : List ℚ) (p : ℚ) : Option ScanState :=
  outerF t p (t.length + 1) ⟨0, [], []⟩

/-- The `penalty` constructor argument, annotated in the source as
`float or tuple[float]`: either a scalar or a tuple of scalars (the
asymmetric form is documented as a 2-tuple; other arities are
malformed). -/
inductive Penalty where
  | scalar (p : ℚ)
  | tuple (ps : List ℚ)
deriving DecidableEq

/-- Embedding of `OptiTrade.net_positive` as executed with an arbitrary `penalty`
object.  For a scalar it evaluates the net-gain test; for any tuple
(of whatever arity) the expression `1 - self.penalty` raises
`TypeError` in Python, modelled as `none`. -/
def net_positivePen (t : List ℚ) (penalty : Penalty) (tmp : List ℕ) :
    Option Bool :=
  match penalty with
  | .scalar p => some (net_positive t p tmp)
  | .tuple _ => none

/-- Embedding of `OptiTrade.check_profitable` as executed with an
arbitrary `penalty` object.  For a scalar it evaluates the
split-profitability test; for any tuple the expression
`self.penalty * (current + intermediate)` yields no number (against a
plain float it raises `TypeError`; against a numpy scalar it broadcasts
to an ndarray, whose subsequent truth test in
`if profitable and self.net_positive():` raises `ValueError`), so the
test never produces a usable Boolean — modelled as `none`. -/
def check_profitablePen (t : List ℚ) (penalty : Penalty) (pos : ℕ)
    (intermediate : ℚ) : Option Bool :=
  match penalty with
  | .scalar p => some (check_profitable t p pos intermediate)
  | .tuple _ => none

/-- The full instance state created by `OptiTrade.__init__`. -/
structure OptiTrade where
  tseries : List ℚ
  penalty : Penalty
  position : ℕ
  tmp : List ℕ
  registered_pairs : List (List ℕ)
deriving DecidableEq

/-- Embedding of `OptiTrade.__init__(tseries, penalty)`: stores its arguments and
initialises `position = 0`, `tmp = []`, `registered_pairs = []`.  The
constructor performs no validation of `penalty` and cannot fail. -/
def OptiTrade.init (tseries : List ℚ) (penalty : Penalty) : OptiTrade :=
  ⟨tseries, penalty, 0, [], []⟩

/-- Modelled from the spec: the construction-time penalty validation the
spec requires (`ConfigurationError: penalty argument has an unsupported
shape (not a scalar, not a 2-tuple)`, raised at construction, before any
scan).  This validation is absent from `OptiTrade.__init__` in the
source; it is defined here only to be compared with the source's
constructor. -/
def initSpec (tseries : List ℚ) (penalty : Penalty) : Option OptiTrade :=
  match penalty with
  | .scalar _ => some (OptiTrade.init tseries penalty)
  | .tuple ps =>
      if ps.length = 2 then some (OptiTrade.init tseries penalty) else none

/-- Well-formedness of the output registry: every registered pair is a
two-element list `[a, b]` with `a < b`, `b` in bounds, and passing the
`net_positive` test; consecutive pairs do not overlap
(`pairs[i][1] ≤ pairs[i+1][0]`). -/
def pairsWF (t : List ℚ) (p : ℚ) (reg : List (List ℕ)) : Prop :=
  (∀ pr ∈ reg, ∃ a b, pr = [a, b] ∧ a < b ∧ b < t.length ∧
      net_positive t p pr = true) ∧
  List.Chain' (fun q r => q.getD 1 0 ≤ r.getD 0 0) reg

/-- The opt-out index of the most recently registered pair (`0` when
nothing is registered yet). -/
def lastEnd (reg : List (List ℕ)) : ℕ := (reg.getLastD []).getD 1 0

/-! ### Properties of the forward-scan primitives -/

lemma find_smaller_go_ge (t : List ℚ) :
    ∀ fuel pos, pos ≤ find_smaller_go t fuel pos := by
  intro fuel
  induction fuel with
  | zero => intro pos; simp [find_smaller_go]
  | succ f ih =>
    intro pos
    by_cases hc : pos + 1 < t.length ∧ getS t (pos+1) ≤ getS t pos
    · rw [find_smaller_go, if_pos hc]
      exact le_trans (Nat.le_succ pos) (ih (pos+1))
    · rw [find_smaller_go, if_neg hc]

lemma find_smaller_ge (t : List ℚ) (pos : ℕ) : pos ≤ find_smaller t pos :=
  find_smaller_go_ge t _ pos

lemma find_smaller_go_lt_length (t : List ℚ) :
    ∀ fuel pos, pos < t.length → find_smaller_go t fuel pos < t.length := by
  intro fuel
  induction fuel with
  | zero => intro pos h; simpa [find_smaller_go] using h
  | succ f ih =>
    intro pos h
    by_cases hc : pos + 1 < t.length ∧ getS t (pos+1) ≤ getS t pos
    · rw [find_smaller_go, if_pos hc]
      exact ih (pos+1) hc.1
    · rw [find_smaller_go, if_neg hc]
      exact h

lemma find_smaller_lt_length (t : List ℚ) (pos : ℕ) (h : pos < t.length) :
    find_smaller t pos < t.length :=
  find_smaller_go_lt_length t _ pos h

lemma find_smaller_go_exit (t : List ℚ) :
    ∀ fuel pos, t.length ≤ fuel + pos →
      find_smaller_go t fuel pos + 1 < t.length →
      getS t (find_smaller_go t fuel pos) <
        getS t (find_smaller_go t fuel pos + 1) := by
  intro fuel
  induction fuel with
  | zero =>
    intro pos hf h
    simp only [find_smaller_go] at h
    exact absurd h (by omega)
  | succ f ih =>
    intro pos hf h
    by_cases hc : pos + 1 < t.length ∧ getS t (pos+1) ≤ getS t pos
    · rw [find_smaller_go, if_pos hc] at h ⊢
      exact ih (pos+1) (by omega) h
    · rw [find_smaller_go, if_neg hc] at h ⊢
      push_neg at hc
      exact hc h

lemma find_smaller_exit (t : List ℚ) (pos : ℕ)
    (h : find_smaller t pos + 1 < t.length) :
    getS t (find_smaller t pos) < getS t (find_smaller t pos + 1) :=
  find_smaller_go_exit t _ pos (by omega) h

lemma find_smaller_advance (t : List ℚ) (pos : ℕ)
    (h1 : pos + 1 < t.length) (h2 : getS t (pos+1) ≤ getS t pos) :
    pos + 1 ≤ find_smaller t pos := by
  obtain ⟨k, hk⟩ : ∃ k, t.length - pos = k + 1 := ⟨t.length - pos - 1, by omega⟩
  rw [find_smaller, hk, find_smaller_go, if_pos ⟨h1, h2⟩]
  exact find_smaller_go_ge t k (pos+1)

lemma negSeries_length (t : List ℚ) : (negSeries t).length = t.length := by
  simp [negSeries]

lemma getS_negSeries (t : List ℚ) (i : ℕ) :
    getS (negSeries t) i = -getS t i := by
  simp only [getS, negSeries, List.getD_eq_getElem?_getD, List.getElem?_map]
  cases t[i]? <;> simp

lemma find_from_go_some (t : List ℚ) (v : ℚ) :
    ∀ fuel i j, find_from_go t v fuel i = some j →
      i ≤ j ∧ j < t.length ∧ v < getS t j := by
  intro fuel
  induction fuel with
  | zero => intro i j h; simp [find_from_go] at h
  | succ f ih =>
    intro i j h
    rw [find_from_go] at h
    by_cases hi : i < t.length
    · rw [if_pos hi] at h
      by_cases hv : v < getS t i
      · rw [if_pos hv] at h
        obtain rfl : i = j := by simpa using h
        exact ⟨le_refl i, hi, hv⟩
      · rw [if_neg hv] at h
        obtain ⟨h1, h2, h3⟩ := ih (i+1) j h
        exact ⟨by omega, h2, h3⟩
    · rw [if_neg hi] at h
      exact absurd h (by simp)

lemma find_next_larger_some (t : List ℚ) (pos j : ℕ)
    (h : find_next_larger t pos = some j) :
    pos < j ∧ j < t.length ∧ getS t pos < getS t j := by
  obtain ⟨h1, h2, h3⟩ := find_from_go_some t (getS t pos) _ pos j h
  refine ⟨?_, h2, h3⟩
  rcases Nat.lt_or_ge pos j with hlt | hge
  · exact hlt
  · obtain rfl : pos = j := le_antisymm h1 hge
    exact absurd h3 (lt_irrefl _)

lemma argmin_go_lt_length (t : List ℚ) :
    ∀ fuel best i e, best < t.length → argmin_go t fuel best i e < t.length := by
  intro fuel
  induction fuel with
  | zero => intro best i e h; simpa [argmin_go] using h
  | succ f ih =>
    intro best i e h
    rw [argmin_go]
    by_cases hc : i < e ∧ i < t.length
    · rw [if_pos hc]
      by_cases hv : getS t i < getS t best
      · rw [if_pos hv]; exact ih i (i+1) e hc.2
      · rw [if_neg hv]; exact ih best (i+1) e h
    · rw [if_neg hc]; exact h

lemma find_min_lt_length (t : List ℚ) (pos e : ℕ) (h : pos < t.length) :
    find_min t pos e < t.length :=
  argmin_go_lt_length t _ pos (pos+1) e h

lemma find_larger_lt_length (t : List ℚ) (pos : ℕ) (h : pos < t.length) :
    find_smaller (negSeries t) pos < t.length := by
  have h2 := find_smaller_lt_length (negSeries t) pos
    (by rwa [negSeries_length])
  rwa [negSeries_length] at h2

lemma find_larger_exit (t : List ℚ) (pos : ℕ)
    (h : find_smaller (negSeries t) pos + 1 < t.length) :
    getS t (find_smaller (negSeries t) pos + 1) <
      getS t (find_smaller (negSeries t) pos) := by
  have h2 := find_smaller_exit (negSeries t) pos (by rwa [negSeries_length])
  rw [getS_negSeries, getS_negSeries] at h2
  linarith

lemma find_larger_advance (t : List ℚ) (pos : ℕ)
    (h1 : pos + 1 < t.length) (h2 : getS t pos ≤ getS t (pos+1)) :
    pos + 1 ≤ find_smaller (negSeries t) pos := by
  apply find_smaller_advance (negSeries t) pos (by rwa [negSeries_length])
  rw [getS_negSeries, getS_negSeries]
  linarith

/-! ### Monotonicity, progress and totality of the scan loops -/

lemma innerF_pos (t : List ℚ) (p : ℚ) :
    ∀ fuel s s', innerF t p fuel s = some s' → s.position ≤ s'.position := by
  intro fuel
  induction fuel with
  | zero => intro s s' h; simp [innerF] at h
  | succ f ih =>
    intro s s' h
    simp only [innerF] at h
    by_cases hguard : s.position < t.length - 1
    · rw [if_pos hguard] at h
      have hdpge : s.position ≤ find_smaller (negSeries t) s.position :=
        find_smaller_ge _ _
      split at h
      next heq =>
        split at h <;> (injection h with h2; subst h2; exact hdpge)
      next nli heq =>
        split at h
        · injection h with h2; subst h2; exact hdpge
        · split at h
          · have h4 : find_smaller t (find_smaller (negSeries t) s.position) ≤
                s'.position := ih _ s' h
            have h5 := find_smaller_ge t (find_smaller (negSeries t) s.position)
            omega
          · have h4 : nli ≤ s'.position := ih _ s' h
            have h5 := (find_next_larger_some t _ nli heq).1
            omega
    · rw [if_neg hguard] at h
      injection h with h2
      subst h2
      exact le_refl _

lemma innerF_ge_dp (t : List ℚ) (p : ℚ) (fuel : ℕ) (s s' : ScanState)
    (h : innerF t p fuel s = some s')
    (hguard : s.position < t.length - 1) :
    find_smaller (negSeries t) s.position ≤ s'.position := by
  cases fuel with
  | zero => simp [innerF] at h
  | succ f =>
    simp only [innerF] at h
    rw [if_pos hguard] at h
    split at h
    next heq =>
      split at h <;> (injection h with h2; subst h2; exact le_refl _)
    next nli heq =>
      split at h
      · injection h with h2; subst h2; exact le_refl _
      · split at h
        · have h4 : find_smaller t (find_smaller (negSeries t) s.position) ≤
              s'.position := innerF_pos t p f _ s' h
          have h5 := find_smaller_ge t (find_smaller (negSeries t) s.position)
          omega
        · have h4 : nli ≤ s'.position := innerF_pos t p f _ s' h
          have h5 := (find_next_larger_some t _ nli heq).1
          omega

lemma innerF_total (t : List ℚ) (p : ℚ) :
    ∀ fuel s, t.length - s.position < fuel →
      ∃ s', innerF t p fuel s = some s' := by
  intro fuel
  induction fuel with
  | zero => intro s h; exact absurd h (by omega)
  | succ f ih =>
    intro s h
    simp only [innerF]
    by_cases hguard : s.position < t.length - 1
    · rw [if_pos hguard]
      split
      next heq => split <;> exact ⟨_, rfl⟩
      next nli heq =>
        have hnl := find_next_larger_some t _ nli heq
        have hdpge : s.position ≤ find_smaller (negSeries t) s.position :=
          find_smaller_ge _ _
        split
        · exact ⟨_, rfl⟩
        · split
          · apply ih
            have h6 : find_smaller (negSeries t) s.position + 1 ≤
                find_smaller t (find_smaller (negSeries t) s.position) := by
              apply find_smaller_advance t _ (by omega)
              exact le_of_lt (find_larger_exit t s.position (by omega))
            show t.length -
              find_smaller t (find_smaller (negSeries t) s.position) < f
            omega
          · apply ih
            show t.length - nli < f
            omega
    · rw [if_neg hguard]
      exact ⟨s, rfl⟩

lemma outerF_total (t : List ℚ) (p : ℚ) :
    ∀ fuel s, t.length - s.position < fuel →
      ∃ s', outerF t p fuel s = some s' := by
  intro fuel
  induction fuel with
  | zero => intro s h; exact absurd h (by omega)
  | succ f ih =>
    intro s h
    simp only [outerF]
    by_cases hguard : s.position < t.length - 1
    · rw [if_pos hguard]
      have hoige : s.position ≤ find_smaller t s.position := find_smaller_ge _ _
      split
      next heq =>
        obtain ⟨s2, hs2⟩ := innerF_total t p (f+1)
          ⟨find_smaller t s.position,
           s.tmp ++ [find_smaller t s.position], s.registered_pairs⟩
          (by show t.length - find_smaller t s.position < f + 1; omega)
        rw [heq] at hs2
        cases hs2
      next s2 heq =>
        apply ih
        have hpos : s.position + 1 ≤ s2.position := by
          by_cases hoi : find_smaller t s.position < t.length - 1
          · have hdp : find_smaller (negSeries t) (find_smaller t s.position) ≤
                s2.position := innerF_ge_dp t p (f+1) _ s2 heq hoi
            have h6 : find_smaller t s.position + 1 ≤
                find_smaller (negSeries t) (find_smaller t s.position) := by
              apply find_larger_advance t _ (by omega)
              exact le_of_lt (find_smaller_exit t s.position (by omega))
            omega
          · cases f with
            | zero =>
              simp only [innerF] at heq
              rw [if_neg hoi] at heq
              injection heq with h2
              subst h2
              show s.position + 1 ≤ find_smaller t s.position
              omega
            | succ f2 =>
              simp only [innerF] at heq
              rw [if_neg hoi] at heq
              injection heq with h2
              subst h2
              show s.position + 1 ≤ find_smaller t s.position
              omega
        omega
    · rw [if_neg hguard]
      exact ⟨s, rfl⟩

lemma find_optimal_pairs_total (t : List ℚ) (p : ℚ) :
    ∃ s, find_optimal_pairs t p = some s :=
  outerF_total t p (t.length + 1) ⟨0, [], []⟩
    (by show t.length - 0 < t.length + 1; omega)

/-! ### The registry invariant -/

lemma pairsWF_append (t : List ℚ) (p : ℚ) (reg : List (List ℕ)) (a b : ℕ)
    (hwf : pairsWF t p reg) (hle : lastEnd reg ≤ a) (hab : a < b)
    (hb : b < t.length) (hnp : net_positive t p [a, b] = true) :
    pairsWF t p (reg ++ [[a, b]]) ∧ lastEnd (reg ++ [[a, b]]) = b := by
  refine ⟨⟨?_, ?_⟩, ?_⟩
  · intro pr hpr
    rcases List.mem_append.mp hpr with hm | hm
    · exact hwf.1 pr hm
    · have hpr2 : pr = [a, b] := by simpa using hm
      subst hpr2
      exact ⟨a, b, rfl, hab, hb, hnp⟩
  · rw [List.chain'_append]
    refine ⟨hwf.2, List.chain'_singleton _, ?_⟩
    intro x hx y hy
    have hy2 : [a, b] = y := by simpa using hy
    subst hy2
    have hx2 : lastEnd reg = x.getD 1 0 := by
      rw [lastEnd, List.getLastD_eq_getLast?, Option.mem_def.mp hx]
      rfl
    show x.getD 1 0 ≤ [a, b].getD 0 0
    rw [← hx2]
    simpa using hle
  · rw [lastEnd, List.getLastD_concat]
    rfl

lemma innerF_inv (t : List ℚ) (p : ℚ) :
    ∀ fuel s s' a, innerF t p fuel s = some s' →
      s.tmp = [a] →
      pairsWF t p s.registered_pairs →
      lastEnd s.registered_pairs ≤ a →
      a ≤ s.position →
      s.position < t.length →
      (a = s.position → s.position + 1 < t.length →
        getS t s.position < getS t (s.position + 1)) →
      pairsWF t p s'.registered_pairs ∧
      ((s'.tmp = [] ∧ lastEnd s'.registered_pairs ≤ s'.position) ∨
       (∃ a2, s'.tmp = [a2] ∧ ¬(s'.position < t.length - 1))) := by
  intro fuel
  induction fuel with
  | zero => intro s s' a h; simp [innerF] at h
  | succ f ih =>
    intro s s' a h htmp hwf hle hapos hlen hcond
    simp only [innerF] at h
    rw [htmp] at h
    by_cases hguard : s.position < t.length - 1
    · rw [if_pos hguard] at h
      have hdpge : s.position ≤ find_smaller (negSeries t) s.position :=
        find_smaller_ge _ _
      have hdplt : find_smaller (negSeries t) s.position < t.length :=
        find_larger_lt_length t s.position hlen
      have hadp : a < find_smaller (negSeries t) s.position := by
        rcases Nat.lt_or_ge a s.position with hlt | hge
        · omega
        · have haeq : a = s.position := by omega
          have h6 := hcond haeq (by omega)
          have h7 := find_larger_advance t s.position (by omega) (le_of_lt h6)
          omega
      split at h
      next heq =>
        split at h
        next hnp =>
          injection h with h2
          subst h2
          obtain ⟨hwf2, hlast2⟩ := pairsWF_append t p s.registered_pairs a
            (find_smaller (negSeries t) s.position) hwf hle hadp hdplt hnp
          exact ⟨hwf2, Or.inl ⟨rfl, le_of_eq hlast2⟩⟩
        next hnp =>
          injection h with h2
          subst h2
          refine ⟨hwf, Or.inl ⟨rfl, ?_⟩⟩
          show lastEnd s.registered_pairs ≤ find_smaller (negSeries t) s.position
          omega
      next nli heq =>
        have hnl := find_next_larger_some t _ nli heq
        split at h
        next hcnd =>
          injection h with h2
          subst h2
          have hnp : net_positive t p
              ([a] ++ [find_smaller (negSeries t) s.position]) = true := by
            simp only [Bool.and_eq_true] at hcnd
            exact hcnd.2
          obtain ⟨hwf2, hlast2⟩ := pairsWF_append t p s.registered_pairs a
            (find_smaller (negSeries t) s.position) hwf hle hadp hdplt hnp
          exact ⟨hwf2, Or.inl ⟨rfl, le_of_eq hlast2⟩⟩
        next hcnd =>
          split at h
          next hprof =>
            apply ih _ s' (find_smaller t (find_smaller (negSeries t) s.position))
              h rfl hwf
            · show lastEnd s.registered_pairs ≤
                find_smaller t (find_smaller (negSeries t) s.position)
              have h8 := find_smaller_ge t (find_smaller (negSeries t) s.position)
              omega
            · exact le_refl _
            · exact find_smaller_lt_length t _ hdplt
            · intro _ h9
              exact find_smaller_exit t _ h9
          next hprof =>
            apply ih _ s' a h rfl hwf hle
            · show a ≤ nli
              omega
            · show nli < t.length
              omega
            · intro h9 _
              exfalso
              have h10 : a = nli := h9
              omega
    · rw [if_neg hguard] at h
      injection h with h2
      subst h2
      rw [htmp]
      exact ⟨hwf, Or.inr ⟨a, rfl, hguard⟩⟩

lemma outerF_inv (t : List ℚ) (p : ℚ) :
    ∀ fuel s s', outerF t p fuel s = some s' →
      pairsWF t p s.registered_pairs →
      ((s.tmp = [] ∧ lastEnd s.registered_pairs ≤ s.position) ∨
       (∃ a, s.tmp = [a] ∧ ¬(s.position < t.length - 1))) →
      pairsWF t p s'.registered_pairs ∧ s'.tmp.length ≤ 1 := by
  intro fuel
  induction fuel with
  | zero => intro s s' h; simp [outerF] at h
  | succ f ih =>
    intro s s' h hwf hdisj
    simp only [outerF] at h
    by_cases hguard : s.position < t.length - 1
    · rw [if_pos hguard] at h
      rcases hdisj with ⟨htmp, hle⟩ | ⟨a, _, hng⟩
      · rw [htmp] at h
        have hoige : s.position ≤ find_smaller t s.position := find_smaller_ge _ _
        split at h
        next heq => cases h
        next s2 heq =>
          have h5 := innerF_inv t p (f+1) _ s2 (find_smaller t s.position) heq
            rfl hwf
            (by show lastEnd s.registered_pairs ≤ find_smaller t s.position; omega)
            (le_refl _)
            (find_smaller_lt_length t s.position (by omega))
            (fun _ h9 => find_smaller_exit t s.position h9)
          exact ih s2 s' h h5.1 h5.2
      · exact absurd hguard hng
    · rw [if_neg hguard] at h
      injection h with h2
      subst h2
      refine ⟨hwf, ?_⟩
      rcases hdisj with ⟨htmp, _⟩ | ⟨a, htmp, _⟩ <;> simp [htmp]

lemma find_optimal_pairs_inv (t : List ℚ) (p : ℚ) (s : ScanState)
    (h : find_optimal_pairs t p = some s) :
    pairsWF t p s.registered_pairs ∧ s.tmp.length ≤ 1 :=
  outerF_inv t p (t.length + 1) ⟨0, [], []⟩ s h
    ⟨fun pr hpr => absurd hpr (List.not_mem_nil pr), List.chain'_nil⟩
    (Or.inl ⟨rfl, by simp [lastEnd]⟩)

lemma chain'_getD_le :
    ∀ l : List (List ℕ),
      List.Chain' (fun q r => q.getD 1 0 ≤ r.getD 0 0) l →
      ∀ i, i + 1 < l.length →
        (l.getD i []).getD 1 0 ≤ (l.getD (i+1) []).getD 0 0 := by
  intro l
  induction l with
  | nil => intro _ i hi; simp at hi
  | cons x xs ih =>
    intro h i hi
    cases xs with
    | nil => simp at hi
    | cons y ys =>
      rcases List.chain'_cons.mp h with ⟨hxy, htail⟩
      cases i with
      | zero => simpa using hxy
      | succ j =>
        have h5 := ih htail j (by simpa using hi)
        simpa using h5

/-! ### Behaviour on strictly increasing series -/

lemma find_smaller_mono_zero (t : List ℚ)
    (hmono : ∀ i, i + 1 < t.length → getS t i < getS t (i+1))
    (hlen : 2 ≤ t.length) : find_smaller t 0 = 0 := by
  obtain ⟨k, hk⟩ : ∃ k, t.length - 0 = k + 1 := ⟨t.length - 1, by omega⟩
  rw [find_smaller, hk, find_smaller_go, if_neg]
  rintro ⟨h3, h4⟩
  exact absurd h4 (not_le.mpr (hmono 0 (by omega)))

lemma find_larger_go_mono (t : List ℚ)
    (hmono : ∀ i, i + 1 < t.length → getS t i < getS t (i+1)) :
    ∀ fuel pos, t.length ≤ fuel + pos → pos < t.length →
      find_smaller_go (negSeries t) fuel pos = t.length - 1 := by
  intro fuel
  induction fuel with
  | zero => intro pos h1 h2; exact absurd h2 (by omega)
  | succ f ih =>
    intro pos h1 h2
    by_cases hc : pos + 1 < (negSeries t).length ∧
        getS (negSeries t) (pos+1) ≤ getS (negSeries t) pos
    · rw [find_smaller_go, if_pos hc]
      have h3 : pos + 1 < t.length := by
        have h4 := hc.1
        rwa [negSeries_length] at h4
      exact ih (pos+1) (by omega) h3
    · rw [find_smaller_go, if_neg hc]
      by_contra hne
      have h3 : pos + 1 < t.length := by omega
      apply hc
      refine ⟨by rwa [negSeries_length], ?_⟩
      rw [getS_negSeries, getS_negSeries]
      have h4 := hmono pos h3
      linarith

lemma find_larger_mono (t : List ℚ)
    (hmono : ∀ i, i + 1 < t.length → getS t i < getS t (i+1))
    (pos : ℕ) (h : pos < t.length) :
    find_smaller (negSeries t) pos = t.length - 1 := by
  rw [find_smaller, negSeries_length]
  exact find_larger_go_mono t hmono _ pos (by omega) h

lemma find_next_larger_last (t : List ℚ) (h : 1 ≤ t.length) :
    find_next_larger t (t.length - 1) = none := by
  have h1 : t.length - (t.length - 1) = 0 + 1 := by omega
  rw [find_next_larger, h1, find_from_go]
  rw [if_pos (show t.length - 1 < t.length by omega), if_neg (lt_irrefl _)]
  rfl

lemma find_optimal_pairs_mono (t : List ℚ) (p : ℚ)
    (hmono : ∀ i, i + 1 < t.length → getS t i < getS t (i+1))
    (hlen : 2 ≤ t.length) :
    find_optimal_pairs t p =
      some ⟨t.length - 1, [],
        if net_positive t p [0, t.length - 1] then [[0, t.length - 1]]
        else []⟩ := by
  have h0 : find_smaller t 0 = 0 := find_smaller_mono_zero t hmono hlen
  have h1 : find_smaller (negSeries t) 0 = t.length - 1 :=
    find_larger_mono t hmono 0 (by omega)
  have h2 : find_next_larger t (t.length - 1) = none :=
    find_next_larger_last t (by omega)
  have hinner : innerF t p (t.length + 1) ⟨0, [0], []⟩ =
      some ⟨t.length - 1, [],
        if net_positive t p [0, t.length - 1] then [[0, t.length - 1]]
        else []⟩ := by
    simp only [innerF]
    rw [if_pos (show (0:ℕ) < t.length - 1 by omega)]
    rw [h1, h2]
    by_cases hnp : net_positive t p [0, t.length - 1] = true
    · simp [hnp]
    · simp [hnp]
  rw [find_optimal_pairs, outerF,
    if_pos (show (0:ℕ) < t.length - 1 by omega)]
  simp only [List.nil_append, h0]
  rw [hinner]
  show outerF t p t.length
      ⟨t.length - 1, [],
        if net_positive t p [0, t.length - 1] then [[0, t.length - 1]]
        else []⟩ =
    some ⟨t.length - 1, [],
        if net_positive t p [0, t.length - 1] then [[0, t.length - 1]]
        else []⟩
  obtain ⟨m, hm⟩ : ∃ m, t.length = m + 2 := ⟨t.length - 2, by omega⟩
  rw [hm, show m + 2 = (m + 1) + 1 from rfl]
  rw [outerF]
  dsimp only
  rw [if_neg (show ¬(m + 1 + 1 - 1 < t.length - 1) by omega)]

/-! ### The claims -/

/-- C1: every pair `[a, b]` appended to `registered_pairs` by
`find_optimal_pairs` satisfies `a < b`, and across the output sequence
pairs are strictly chronological and non-overlapping:
`pairs[i][1] ≤ pairs[i+1][0]` for consecutive pairs. -/
theorem c1_pairs_ordered (t : List ℚ) (p : ℚ) (s : ScanState)
    (h : find_optimal_pairs t p = some s) :
    (∀ pr ∈ s.registered_pairs, ∃ a b, pr = [a, b] ∧ a < b) ∧
    (∀ i, i + 1 < s.registered_pairs.length →
      (s.registered_pairs.getD i []).getD 1 0 ≤
        (s.registered_pairs.getD (i+1) []).getD 0 0) := by
  obtain ⟨⟨hall, hchain⟩, _⟩ := find_optimal_pairs_inv t p s h
  refine ⟨?_, chain'_getD_le _ hchain⟩
  intro pr hpr
  obtain ⟨a, b, rfl, hab, _, _⟩ := hall pr hpr
  exact ⟨a, b, rfl, hab⟩

/-- Witness for C1 at the series `[1, 2]` with penalty `0`. -/
theorem c1_witness :
    find_optimal_pairs [1, 2] 0 = some ⟨1, [], [[0, 1]]⟩ ∧
    (∀ pr ∈ (⟨1, [], [[0, 1]]⟩ : ScanState).registered_pairs,
      ∃ a b, pr = [a, b] ∧ a < b) := by
  have he : find_optimal_pairs [1, 2] 0 = some ⟨1, [], [[0, 1]]⟩ := by
    with_unfolding_all decide
  exact ⟨he, (c1_pairs_ordered [1, 2] 0 _ he).1⟩

/-- C2: every pair registered by `find_optimal_pairs` under scalar
penalty `p` satisfies `(1 - p) * series[b] - (1 + p) * series[a] > 0`;
consequently, when no index pair is net-positive under `p`, zero pairs
are registered. -/
theorem c2_registered_pairs_net_positive (t : List ℚ) (p : ℚ)
    (s : ScanState) (h : find_optimal_pairs t p = some s) :
    (∀ pr ∈ s.registered_pairs,
      0 < (1 - p) * getS t (pr.getD 1 0) - (1 + p) * getS t (pr.getD 0 0)) ∧
    ((∀ a b : ℕ, ¬(0 < (1 - p) * getS t b - (1 + p) * getS t a)) →
      s.registered_pairs = []) := by
  obtain ⟨⟨hall, _⟩, _⟩ := find_optimal_pairs_inv t p s h
  constructor
  · intro pr hpr
    obtain ⟨a, b, rfl, _, _, hnp⟩ := hall pr hpr
    simp only [net_positive, decide_eq_true_eq] at hnp
    simpa using hnp
  · intro hnone
    rcases hreg : s.registered_pairs with _ | ⟨pr, rest⟩
    · rfl
    · exfalso
      have hmem : pr ∈ s.registered_pairs := by
        rw [hreg]
        exact List.mem_cons_self _ _
      obtain ⟨a, b, hpr2, _, _, hnp⟩ := hall pr hmem
      subst hpr2
      simp only [net_positive, decide_eq_true_eq] at hnp
      apply hnone a b
      simpa using hnp

/-- Witness for C2 at the series `[1, 2]` with penalty `0`. -/
theorem c2_witness :
    find_optimal_pairs [1, 2] 0 = some ⟨1, [], [[0, 1]]⟩ ∧
    (∀ pr ∈ (⟨1, [], [[0, 1]]⟩ : ScanState).registered_pairs,
      0 < (1 - 0) * getS [1, 2] (pr.getD 1 0) -
        (1 + 0) * getS [1, 2] (pr.getD 0 0)) := by
  have he : find_optimal_pairs [1, 2] 0 = some ⟨1, [], [[0, 1]]⟩ := by
    with_unfolding_all decide
  exact ⟨he, (c2_registered_pairs_net_positive [1, 2] 0 _ he).1⟩

/-- C3: `find_optimal_pairs` terminates on every finite series with a
scalar penalty (`t.length + 1` units of fuel always suffice), and in an
inner-loop iteration starting at cursor `pos` that does not exit the
loop (`find_next_larger` returns `some j` at the decision point), both
continuation branches strictly increase the cursor — the advance branch
moves it to `j > pos`, the refine branch to
`find_smaller t decision_point > pos` — and the refined opt-in is found
at or after the decision point, hence at or after the previous opt-in,
never moving the cursor backward. -/
theorem c3_scan_terminates (t : List ℚ) (p : ℚ) :
    (∃ s, find_optimal_pairs t p = some s) ∧
    (∀ pos j, pos < t.length - 1 →
      find_next_larger t (find_smaller (negSeries t) pos) = some j →
      pos < j ∧
      pos < find_smaller t (find_smaller (negSeries t) pos) ∧
      find_smaller (negSeries t) pos ≤
        find_smaller t (find_smaller (negSeries t) pos)) := by
  refine ⟨find_optimal_pairs_total t p, ?_⟩
  intro pos j hpos hj
  obtain ⟨h1, h2, _⟩ := find_next_larger_some t _ j hj
  have hdpge := find_smaller_ge (negSeries t) pos
  have hge2 := find_smaller_ge t (find_smaller (negSeries t) pos)
  have h6 : find_smaller (negSeries t) pos + 1 ≤
      find_smaller t (find_smaller (negSeries t) pos) := by
    apply find_smaller_advance t _ (by omega)
    exact le_of_lt (find_larger_exit t pos (by omega))
  exact ⟨by omega, by omega, hge2⟩

/-- Witness for C3 at the series `[1, 2, 1, 3]`, cursor `0`. -/
theorem c3_witness :
    ((0:ℕ) < ([1, 2, 1, 3] : List ℚ).length - 1 ∧
     find_next_larger [1, 2, 1, 3]
        (find_smaller (negSeries [1, 2, 1, 3]) 0) = some 3) ∧
    (0:ℕ) < 3 ∧
    (0:ℕ) < find_smaller [1, 2, 1, 3]
        (find_smaller (negSeries [1, 2, 1, 3]) 0) := by
  have h1 : (0:ℕ) < ([1, 2, 1, 3] : List ℚ).length - 1 := by
    with_unfolding_all decide
  have h2 : find_next_larger [1, 2, 1, 3]
      (find_smaller (negSeries [1, 2, 1, 3]) 0) = some 3 := by
    with_unfolding_all decide
  have h3 := (c3_scan_terminates [1, 2, 1, 3] 0).2 0 3 h1 h2
  exact ⟨⟨h1, h2⟩, h3.1, h3.2.1⟩

/-- C4: with a two-element tuple penalty the source cannot perform the
documented asymmetric confirmation test at all: `net_positive`
evaluates `1 - self.penalty`, which raises `TypeError` for a tuple, so
no Boolean is returned (modelled as `none`) instead of the claimed
`(1 - exit_penalty) * value[b] - (1 + entry_penalty) * value[a] > 0`. -/
theorem c4_tuple_penalty_errors :
    net_positivePen [1, 2] (Penalty.tuple [0, 0]) [0, 1] = none ∧
    ∀ (t : List ℚ) (e x : ℚ) (tmp : List ℕ),
      net_positivePen t (Penalty.tuple [e, x]) tmp = none :=
  ⟨rfl, fun _ _ _ _ => rfl⟩

/-- C5 counterexample: constructing an instance with a malformed
penalty (wrong arity for the asymmetric form: a 3-tuple) raises
nothing — `__init__` returns the fully populated state with the
malformed penalty stored as-is, whereas the spec-modelled
construction-time validation `initSpec` rejects the same input. -/
theorem c5_counterexample :
    OptiTrade.init [1, 2] (Penalty.tuple [1, 2, 3]) =
      ⟨[1, 2], Penalty.tuple [1, 2, 3], 0, [], []⟩ ∧
    initSpec [1, 2] (Penalty.tuple [1, 2, 3]) = none :=
  ⟨rfl, rfl⟩

/-- C5 (amended): construction performs no penalty validation and never
raises — any penalty, malformed ones included, is stored as-is, and no
`ConfigurationError` exists; an error from a malformed (tuple) penalty
can only arise later, during a scan, at a penalty-using test, and
neither such test — `check_profitable`'s split-profitability test nor
`net_positive`'s confirmation test — yields a Boolean for a tuple
penalty. -/
theorem c5_no_construction_validation :
    (∀ (t : List ℚ) (pen : Penalty),
      OptiTrade.init t pen = ⟨t, pen, 0, [], []⟩) ∧
    (∀ (t : List ℚ) (ps : List ℚ) (pos : ℕ) (v : ℚ),
      check_profitablePen t (Penalty.tuple ps) pos v = none) ∧
    (∀ (t : List ℚ) (ps : List ℚ) (tmp : List ℕ),
      net_positivePen t (Penalty.tuple ps) tmp = none) :=
  ⟨fun _ _ => rfl, fun _ _ _ _ => rfl, fun _ _ _ => rfl⟩

set_option maxRecDepth 8000 in
/-- C6: on the series
`[5.94, 5.89, 5.97, 6.0, 5.98, 6.07, 5.88, 5.98, 5.9]` with penalty
`0.0025`, the scan registers the pair with opt-in index `1`
(value `5.89`) and opt-out index `5` (value `6.07`), and that pair is
net-positive: `(1 - p) * 6.07 - (1 + p) * 5.89 > 0`. -/
theorem c6_scenario_a :
    (∃ s, find_optimal_pairs
        [594/100, 589/100, 597/100, 6, 598/100, 607/100, 588/100,
         598/100, 590/100] (1/400) = some s ∧
      [1, 5] ∈ s.registered_pairs) ∧
    getS [594/100, 589/100, 597/100, 6, 598/100, 607/100, 588/100,
      598/100, 590/100] 1 = 589/100 ∧
    getS [594/100, 589/100, 597/100, 6, 598/100, 607/100, 588/100,
      598/100, 590/100] 5 = 607/100 ∧
    (0:ℚ) < (1 - 1/400) * (607/100) - (1 + 1/400) * (589/100) := by
  refine ⟨⟨⟨8, [8], [[1, 5], [6, 7]]⟩, ?_, ?_⟩, ?_, ?_, ?_⟩ <;>
    with_unfolding_all decide

/-- C7: on a series of length `0` or `1`, with any scalar penalty, the
outer loop body never executes: the scan terminates immediately with
zero registered pairs (and an empty candidate buffer), raising no
error. -/
theorem c7_short_series (t : List ℚ) (p : ℚ) (h : t.length ≤ 1) :
    find_optimal_pairs t p = some ⟨0, [], []⟩ := by
  rw [find_optimal_pairs, outerF,
    if_neg (show ¬((⟨0, [], []⟩ : ScanState).position < t.length - 1) from by
      show ¬(0 < t.length - 1)
      omega)]

/-- Witness for C7 at the one-element series `[5]` with penalty `3`. -/
theorem c7_witness :
    ([5] : List ℚ).length ≤ 1 ∧
    find_optimal_pairs [5] 3 = some ⟨0, [], []⟩ :=
  ⟨by with_unfolding_all decide,
   c7_short_series [5] 3 (by with_unfolding_all decide)⟩

/-- C8: on a strictly increasing series of length at least `2` with
scalar penalty `p`, the scan registers exactly the single pair
`[0, N-1]` when `(1 - p) * series[N-1] - (1 + p) * series[0] > 0`, and
zero pairs otherwise. -/
theorem c8_monotone_series (t : List ℚ) (p : ℚ)
    (hmono : ∀ i, i + 1 < t.length → getS t i < getS t (i+1))
    (hlen : 2 ≤ t.length) (s : ScanState)
    (h : find_optimal_pairs t p = some s) :
    (0 < (1 - p) * getS t (t.length - 1) - (1 + p) * getS t 0 →
      s.registered_pairs = [[0, t.length - 1]]) ∧
    (¬(0 < (1 - p) * getS t (t.length - 1) - (1 + p) * getS t 0) →
      s.registered_pairs = []) := by
  have hcomp := find_optimal_pairs_mono t p hmono hlen
  rw [h] at hcomp
  injection hcomp with h2
  have hnp : net_positive t p [0, t.length - 1] = true ↔
      0 < (1 - p) * getS t (t.length - 1) - (1 + p) * getS t 0 := by
    simp [net_positive]
  constructor
  · intro hpos
    rw [h2]
    dsimp only
    rw [if_pos (hnp.mpr hpos)]
  · intro hneg
    rw [h2]
    dsimp only
    rw [if_neg (fun hcontra => hneg (hnp.mp hcontra))]

/-- Witness for C8 at the series `[1, 2, 3]` with penalty `0`. -/
theorem c8_witness :
    (∀ i, i + 1 < ([1, 2, 3] : List ℚ).length →
      getS [1, 2, 3] i < getS [1, 2, 3] (i+1)) ∧
    2 ≤ ([1, 2, 3] : List ℚ).length ∧
    find_optimal_pairs [1, 2, 3] 0 = some ⟨2, [], [[0, 2]]⟩ ∧
    (0 < (1 - 0) * getS [1, 2, 3] (([1, 2, 3] : List ℚ).length - 1) -
        (1 + 0) * getS [1, 2, 3] 0 →
      (⟨2, [], [[0, 2]]⟩ : ScanState).registered_pairs =
        [[0, ([1, 2, 3] : List ℚ).length - 1]]) := by
  have hmono : ∀ i, i + 1 < ([1, 2, 3] : List ℚ).length →
      getS [1, 2, 3] i < getS [1, 2, 3] (i+1) := by
    intro i hi
    match i, hi with
    | 0, _ => exact (by with_unfolding_all decide :
        getS [1, 2, 3] 0 < getS [1, 2, 3] 1)
    | 1, _ => exact (by with_unfolding_all decide :
        getS [1, 2, 3] 1 < getS [1, 2, 3] 2)
    | n+2, hi =>
      exfalso
      have hlen3 : ([1, 2, 3] : List ℚ).length = 3 := rfl
      rw [hlen3] at hi
      omega
  have he : find_optimal_pairs [1, 2, 3] 0 = some ⟨2, [], [[0, 2]]⟩ := by
    with_unfolding_all decide
  exact ⟨hmono, by with_unfolding_all decide, he,
    (c8_monotone_series [1, 2, 3] 0 hmono (by with_unfolding_all decide)
      _ he).1⟩

/-- C9: the forward-scan primitives never produce an index past the
last valid position — `find_smaller`, `find_next_larger` and `find_min`
return in-bounds indices for in-bounds starting cursors (so every
series access of the scan is in `[0, N-1]`) — and every index appearing
in a registered pair lies in `[0, N-1]`. -/
theorem c9_indices_in_bounds (t : List ℚ) (p : ℚ) :
    (∀ pos, pos < t.length → find_smaller t pos < t.length) ∧
    (∀ pos j, find_next_larger t pos = some j → j < t.length) ∧
    (∀ pos e, pos < t.length → find_min t pos e < t.length) ∧
    (∀ s, find_optimal_pairs t p = some s →
      ∀ pr ∈ s.registered_pairs, ∀ i ∈ pr, i < t.length) := by
  refine ⟨fun pos => find_smaller_lt_length t pos,
    fun pos j hj => (find_next_larger_some t pos j hj).2.1,
    fun pos e he => find_min_lt_length t pos e he, ?_⟩
  intro s h pr hpr i hi
  obtain ⟨⟨hall, _⟩, _⟩ := find_optimal_pairs_inv t p s h
  obtain ⟨a, b, rfl, hab, hb, _⟩ := hall pr hpr
  have hor : i = a ∨ i = b := by simpa using hi
  rcases hor with rfl | rfl <;> omega

/-- Witness for C9 at the series `[2, 1]`, cursor `0`. -/
theorem c9_witness :
    (0:ℕ) < ([2, 1] : List ℚ).length ∧
    find_smaller [2, 1] 0 < ([2, 1] : List ℚ).length := by
  have h : (0:ℕ) < ([2, 1] : List ℚ).length := by with_unfolding_all decide
  exact ⟨h, (c9_indices_in_bounds [2, 1] 0).1 0 h⟩

/-- C10: when `find_optimal_pairs` returns, the candidate buffer `tmp`
holds at most one index (a dangling opt-in near the series end): a
complete two-element candidate is never left behind, and everything in
`registered_pairs` is a confirmed two-element pair, so a leftover
single-entry buffer is never appended. -/
theorem c10_candidate_buffer (t : List ℚ) (p : ℚ) (s : ScanState)
    (h : find_optimal_pairs t p = some s) :
    s.tmp.length ≤ 1 ∧ ∀ pr ∈ s.registered_pairs, pr.length = 2 := by
  obtain ⟨⟨hall, _⟩, htmp⟩ := find_optimal_pairs_inv t p s h
  refine ⟨htmp, fun pr hpr => ?_⟩
  obtain ⟨a, b, rfl, _⟩ := hall pr hpr
  rfl

/-- Witness for C10 at the series `[2, 1]` with penalty `0`, whose scan
ends with the dangling opt-in buffer `[1]`. -/
theorem c10_witness :
    find_optimal_pairs [2, 1] 0 = some ⟨1, [1], []⟩ ∧
    (⟨1, [1], []⟩ : ScanState).tmp.length ≤ 1 := by
  have he : find_optimal_pairs [2, 1] 0 = some ⟨1, [1], []⟩ := by
    with_unfolding_all decide
  exact ⟨he, (c10_candidate_buffer [2, 1] 0 _ he).1⟩
